import Mathlib

/-!
Verification of the vibecoded registry's detection/discovery pipeline.

Shallow embedding of the TypeScript sources under `scripts/`:
`detect.ts` (detection scorer, evidence collectors, signal aggregators),
`scan.ts` (vulnerability report normalizer), `discover.ts` (discovery
engine), `lib/github.ts` (rate-limited gateway) and `lib/shard.ts`
(sharded catalog store).  JavaScript strings are modelled through their
character lists; numbers that are always nonnegative integers in the
source are modelled as `Nat`, timestamps as `Int`.
-/

/-! ### JavaScript string primitives, modelled on character lists -/

/-- ASCII lower-casing of one character, as `String.prototype.toLowerCase`
acts on the ASCII range (the only range the sources compare against). -/
def toLowerCh (c : Char) : Char :=
  if 'A' ≤ c ∧ c ≤ 'Z' then Char.ofNat (c.toNat + 32) else c

/-- `s.toLowerCase()` on the ASCII range. -/
def jsToLower (s : String) : String := ⟨s.data.map toLowerCh⟩

/-- Whether `needle` occurs contiguously inside the second list
(`String.prototype.includes`). -/
def containsSub (needle : List Char) : List Char → Bool
  | [] => needle.isEmpty
  | c :: rest => needle.isPrefixOf (c :: rest) || containsSub needle rest

/-- `hay.includes(pat)`. -/
def jsIncludes (hay pat : String) : Bool := containsSub pat.data hay.data

/-! ### Data model of `detect.ts` -/

inductive DetectedVia
  | file
  | commits
deriving DecidableEq

structure DetectionEvidence where
  name : String
  detected_via : DetectedVia
  evidence_url : String
deriving DecidableEq

structure CommitMessageSignals where
  sampleSize : Nat
  avgMessageLength : Nat
  emDashCount : Nat
  enDashCount : Nat
  aiMentionCount : Nat

structure CommitSizeSignals where
  sampledCommits : Nat
  avgChanges : Nat
  medianChanges : Nat
  largeCommitCount : Nat

structure ContributorSignals where
  hasClaudeBotContributor : Bool
  matchedBots : List String

inductive DetectionLevel
  | low
  | medium
  | high
deriving DecidableEq

structure DetectionSummary where
  score : Nat
  level : DetectionLevel
  reasons : List String

def VIBE_SCORE_PR_THRESHOLD : Nat := 7

/-- Decimal rendering of a count, as JavaScript template interpolation does. -/
def natStr (n : Nat) : String := toString n

/-- One `if (cond) { score += pts; reasons.push(msg); }` step of
`calculateDetectionSummary`, applied for each rule in order. -/
def applyRules (sr : Nat × List String) : List (Bool × Nat × String) → Nat × List String
  | [] => sr
  | (fired, pts, msg) :: rest =>
    applyRules (if fired then (sr.1 + pts, sr.2 ++ [msg]) else sr) rest

/-- The ternary level mapping `score >= 9 ? high : score >= 5 ? medium : low`. -/
def levelOf (score : Nat) : DetectionLevel :=
  if 9 ≤ score then DetectionLevel.high
  else if 5 ≤ score then DetectionLevel.medium
  else DetectionLevel.low

/-- `calculateDetectionSummary` from `scripts/detect.ts`: additive score,
three-level label and one reason string per fired rule, the rules applied
in source order. -/
def calculateDetectionSummary (aiTools : List DetectionEvidence)
    (commitMessageSignals : CommitMessageSignals)
    (commitSizeSignals : CommitSizeSignals)
    (contributorSignals : ContributorSignals) : DetectionSummary :=
  let fileSignals := (aiTools.filter (fun t => t.detected_via == DetectedVia.file)).length
  let commitSignals := (aiTools.filter (fun t => t.detected_via == DetectedVia.commits)).length
  let sr := applyRules (0, [])
    [ (decide (0 < fileSignals), fileSignals * 4,
        natStr fileSignals ++ " file-based AI signal(s)"),
      (decide (0 < commitSignals), commitSignals * 2,
        natStr commitSignals ++ " commit-message AI signal(s)"),
      (contributorSignals.hasClaudeBotContributor, 3, "claude bot contributor detected"),
      (decide (0 < commitMessageSignals.emDashCount)
        || decide (0 < commitMessageSignals.enDashCount), 1,
        "dash punctuation pattern present in commits"),
      (decide (2 ≤ commitMessageSignals.aiMentionCount), 2,
        "multiple AI mentions in commit messages"),
      (decide (0 < commitSizeSignals.largeCommitCount), 1, "large commits detected") ]
  { score := sr.1, level := levelOf sr.1, reasons := sr.2 }

theorem applyRules_fst (sr : Nat × List String) (rules : List (Bool × Nat × String)) :
    (applyRules sr rules).1 = sr.1 + ((rules.filter (fun r => r.1)).map (fun r => r.2.1)).sum := by
  induction rules generalizing sr with
  | nil => simp [applyRules]
  | cons r rest ih =>
    obtain ⟨fired, pts, msg⟩ := r
    cases fired <;> simp [applyRules, ih, List.filter_cons] <;> omega

theorem applyRules_snd (sr : Nat × List String) (rules : List (Bool × Nat × String)) :
    (applyRules sr rules).2 = sr.2 ++ ((rules.filter (fun r => r.1)).map (fun r => r.2.2)) := by
  induction rules generalizing sr with
  | nil => simp [applyRules]
  | cons r rest ih =>
    obtain ⟨fired, pts, msg⟩ := r
    cases fired <;> simp [applyRules, ih, List.filter_cons]

theorem levelOf_eq_high (n : Nat) : levelOf n = DetectionLevel.high ↔ 9 ≤ n := by
  unfold levelOf; split_ifs <;> simp <;> omega

theorem levelOf_eq_medium (n : Nat) : levelOf n = DetectionLevel.medium ↔ 5 ≤ n ∧ n < 9 := by
  unfold levelOf; split_ifs <;> simp <;> omega

theorem levelOf_eq_low (n : Nat) : levelOf n = DetectionLevel.low ↔ n < 5 := by
  unfold levelOf; split_ifs <;> simp <;> omega

theorem firedRules_sum_eq_zero_iff (l : List (Bool × Nat × String))
    (hpos : ∀ r ∈ l, r.1 = true → 0 < r.2.1) :
    (((l.filter (fun r => r.1)).map (fun r => r.2.1)).sum = 0
      ↔ (l.filter (fun r => r.1)).map (fun r => r.2.2) = []) := by
  cases h : l.filter (fun r => r.1) with
  | nil => simp [h]
  | cons a t =>
    have ha : a ∈ l.filter (fun r => r.1) := h ▸ List.mem_cons_self a t
    have hfired : a.1 = true := by
      have := List.of_mem_filter ha
      simpa using this
    have := hpos a (List.mem_of_mem_filter ha) hfired
    simp only [h, List.map_cons, List.sum_cons, List.cons_ne_nil, iff_false]
    omega

/-- `shouldCreateDiscoveryPr` from `scripts/detect.ts`. -/
def shouldCreateDiscoveryPr (summary : DetectionSummary)
    (aiTools : List DetectionEvidence)
    (contributorSignals : ContributorSignals)
    (commitMessageSignals : CommitMessageSignals) : Bool :=
  if summary.score < VIBE_SCORE_PR_THRESHOLD then false
  else
    let fileSignals := (aiTools.filter (fun t => t.detected_via == DetectedVia.file)).length
    let hasCommitAiPattern := decide (2 ≤ commitMessageSignals.aiMentionCount)
    decide (0 < fileSignals) || hasCommitAiPattern ||
      contributorSignals.hasClaudeBotContributor

set_option maxHeartbeats 1600000 in
/-- C1: `calculateDetectionSummary` scores 4 per file-based evidence item, 2
per commit-based item, 3 for a bot contributor, 1 for nonzero dash counts,
2 for at least two AI mentions and 1 for a large commit; the level is
`high` iff the score is at least 9, `medium` iff it is in `[5, 9)`, else
`low`; the reasons hold exactly one string per fired rule, in rule order. -/
theorem calculateDetectionSummary_spec (aiTools : List DetectionEvidence)
    (cms : CommitMessageSignals) (css : CommitSizeSignals) (cts : ContributorSignals) :
    (calculateDetectionSummary aiTools cms css cts).score =
      (aiTools.filter (fun t => t.detected_via == DetectedVia.file)).length * 4
      + (aiTools.filter (fun t => t.detected_via == DetectedVia.commits)).length * 2
      + (if cts.hasClaudeBotContributor then 3 else 0)
      + (if 0 < cms.emDashCount ∨ 0 < cms.enDashCount then 1 else 0)
      + (if 2 ≤ cms.aiMentionCount then 2 else 0)
      + (if 0 < css.largeCommitCount then 1 else 0)
    ∧ ((calculateDetectionSummary aiTools cms css cts).level = DetectionLevel.high
        ↔ 9 ≤ (calculateDetectionSummary aiTools cms css cts).score)
    ∧ ((calculateDetectionSummary aiTools cms css cts).level = DetectionLevel.medium
        ↔ 5 ≤ (calculateDetectionSummary aiTools cms css cts).score
          ∧ (calculateDetectionSummary aiTools cms css cts).score < 9)
    ∧ ((calculateDetectionSummary aiTools cms css cts).level = DetectionLevel.low
        ↔ (calculateDetectionSummary aiTools cms css cts).score < 5)
    ∧ (calculateDetectionSummary aiTools cms css cts).reasons =
      (if 0 < (aiTools.filter (fun t => t.detected_via == DetectedVia.file)).length then
        [natStr (aiTools.filter (fun t => t.detected_via == DetectedVia.file)).length
          ++ " file-based AI signal(s)"] else [])
      ++ (if 0 < (aiTools.filter (fun t => t.detected_via == DetectedVia.commits)).length then
        [natStr (aiTools.filter (fun t => t.detected_via == DetectedVia.commits)).length
          ++ " commit-message AI signal(s)"] else [])
      ++ (if cts.hasClaudeBotContributor then ["claude bot contributor detected"] else [])
      ++ (if 0 < cms.emDashCount ∨ 0 < cms.enDashCount then
        ["dash punctuation pattern present in commits"] else [])
      ++ (if 2 ≤ cms.aiMentionCount then ["multiple AI mentions in commit messages"] else [])
      ++ (if 0 < css.largeCommitCount then ["large commits detected"] else []) := by
  simp only [calculateDetectionSummary]
  refine ⟨?_, levelOf_eq_high _, levelOf_eq_medium _, levelOf_eq_low _, ?_⟩
  · rw [applyRules_fst]
    simp only [List.filter_cons, List.filter_nil, decide_eq_true_eq, Bool.or_eq_true]
    split_ifs <;>
      simp only [List.map_cons, List.map_nil, List.sum_cons, List.sum_nil] <;> omega
  · rw [applyRules_snd]
    simp only [List.filter_cons, List.filter_nil, decide_eq_true_eq, Bool.or_eq_true]
    split_ifs <;>
      simp only [List.map_cons, List.map_nil, List.nil_append, List.append_nil,
        List.cons_append, List.singleton_append]

/-- C2: the gating predicate is false whenever the score is below 7, and at
score at least 7 it is true exactly when file evidence exists, at least two
commits mention an AI tool, or a bot contributor matched. -/
theorem shouldCreateDiscoveryPr_spec (summary : DetectionSummary)
    (aiTools : List DetectionEvidence) (cts : ContributorSignals)
    (cms : CommitMessageSignals) :
    (summary.score < 7 → shouldCreateDiscoveryPr summary aiTools cts cms = false)
    ∧ (7 ≤ summary.score →
      (shouldCreateDiscoveryPr summary aiTools cts cms = true ↔
        0 < (aiTools.filter (fun t => t.detected_via == DetectedVia.file)).length
        ∨ 2 ≤ cms.aiMentionCount ∨ cts.hasClaudeBotContributor = true)) := by
  simp only [shouldCreateDiscoveryPr, VIBE_SCORE_PR_THRESHOLD]
  constructor
  · intro h
    simp [h]
  · intro h
    rw [if_neg (by omega)]
    simp [Bool.or_eq_true, or_assoc]

/-- Concrete use of `shouldCreateDiscoveryPr_spec`: at score 7 with one
file-based evidence item the gate opens. -/
theorem shouldCreateDiscoveryPr_spec_witness :
    shouldCreateDiscoveryPr ⟨7, DetectionLevel.medium, []⟩
      [⟨"cursor", DetectedVia.file, "u"⟩] ⟨false, []⟩ ⟨0, 0, 0, 0, 0⟩ = true :=
  ((shouldCreateDiscoveryPr_spec ⟨7, DetectionLevel.medium, []⟩
      [⟨"cursor", DetectedVia.file, "u"⟩] ⟨false, []⟩ ⟨0, 0, 0, 0, 0⟩).2
    (by decide)).mpr (Or.inl (by decide))

/-- C10: the score is zero exactly when the reasons list is empty, and at
most six reasons are ever produced (one per scoring rule). -/
theorem calculateDetectionSummary_reasons_inv (aiTools : List DetectionEvidence)
    (cms : CommitMessageSignals) (css : CommitSizeSignals) (cts : ContributorSignals) :
    ((calculateDetectionSummary aiTools cms css cts).score = 0
      ↔ (calculateDetectionSummary aiTools cms css cts).reasons = [])
    ∧ (calculateDetectionSummary aiTools cms css cts).reasons.length ≤ 6 := by
  simp only [calculateDetectionSummary]
  rw [applyRules_fst, applyRules_snd]
  constructor
  · simp only [Nat.zero_add, List.nil_append]
    apply firedRules_sum_eq_zero_iff
    intro r hr
    fin_cases hr <;> simp
  · simp only [List.nil_append, List.length_map]
    exact le_trans (List.length_filter_le _ _) (by simp)

/-! ### `scan.ts`: target URL construction (C8) -/

/-- The regex replace `target.replace(/^\.\/+/, "")`: one leading dot
followed by a maximal run of one or more slashes is removed. -/
def normalizeTargetChars : List Char → List Char
  | '.' :: '/' :: rest => rest.dropWhile (fun c => c == '/')
  | l => l

/-- The normalized target path. -/
def normalizeTarget (t : String) : String := ⟨normalizeTargetChars t.data⟩

/-- The characters of `"://"`. -/
def schemeChars : List Char := [':', '/', '/']

/-- `buildTargetUrl` from `scripts/scan.ts`. -/
def buildTargetUrl (fullName ref : String) (target : Option String) : Option String :=
  match target with
  | none => none
  | some t =>
    if t = "" then none
    else
      let normalized := normalizeTarget t
      if normalized = "" || containsSub schemeChars normalized.data then none
      else some ("https://github.com/" ++ fullName ++ "/blob/" ++ ref ++ "/" ++ normalized)

theorem containsSub_cons_of_head_ne (c : Char) (l : List Char) (hc : c ≠ ':') :
    containsSub schemeChars (c :: l) = containsSub schemeChars l := by
  have hpre : schemeChars.isPrefixOf (c :: l) = false := by
    have : (':' == c) = false := by
      simp only [beq_eq_false_iff_ne, ne_eq]
      exact fun h => hc h.symm
    simp [schemeChars, List.isPrefixOf, this]
  simp only [containsSub, hpre, Bool.false_or]

theorem containsSub_dropWhile_slash (l : List Char) :
    containsSub schemeChars (l.dropWhile (fun c => c == '/')) = containsSub schemeChars l := by
  induction l with
  | nil => rfl
  | cons c rest ih =>
    by_cases h : c = '/'
    · subst h
      rw [List.dropWhile_cons_of_pos (by simp), ih,
        containsSub_cons_of_head_ne '/' rest (by decide)]
    · rw [List.dropWhile_cons_of_neg (by simpa using h)]

theorem containsSub_normalizeTargetChars (l : List Char) :
    containsSub schemeChars (normalizeTargetChars l) = containsSub schemeChars l := by
  unfold normalizeTargetChars
  split
  · next rest =>
    rw [containsSub_dropWhile_slash,
      containsSub_cons_of_head_ne '.' ('/' :: rest) (by decide),
      containsSub_cons_of_head_ne '/' rest (by decide)]
  · rfl

/-- C8: `buildTargetUrl` yields nothing when the target is undefined, empty,
empty after stripping a leading dot-slash prefix, or contains `"://"`;
otherwise it yields the `blob` permalink for the normalized path, and in
particular maps `package-lock.json` in `acme/repo` at ref `main` to its
GitHub blob URL. -/
theorem buildTargetUrl_spec (fullName ref : String) :
    buildTargetUrl fullName ref none = none
    ∧ buildTargetUrl fullName ref (some "") = none
    ∧ (∀ t : String, normalizeTarget t = "" → buildTargetUrl fullName ref (some t) = none)
    ∧ (∀ t : String, jsIncludes t "://" = true → buildTargetUrl fullName ref (some t) = none)
    ∧ (∀ t : String, t ≠ "" → normalizeTarget t ≠ "" → jsIncludes t "://" = false →
        buildTargetUrl fullName ref (some t) =
          some ("https://github.com/" ++ fullName ++ "/blob/" ++ ref ++ "/" ++ normalizeTarget t))
    ∧ buildTargetUrl "acme/repo" "main" (some "package-lock.json")
        = some "https://github.com/acme/repo/blob/main/package-lock.json" := by
  have hscheme : ∀ t : String,
      containsSub schemeChars (normalizeTarget t).data = jsIncludes t "://" := by
    intro t
    show containsSub schemeChars (normalizeTargetChars t.data) = _
    rw [containsSub_normalizeTargetChars]
    rfl
  refine ⟨rfl, rfl, ?_, ?_, ?_, by decide⟩
  · intro t ht
    by_cases h0 : t = ""
    · subst h0; rfl
    · simp only [buildTargetUrl, if_neg h0, ht]
      simp
  · intro t ht
    by_cases h0 : t = ""
    · subst h0; rfl
    · simp only [buildTargetUrl, if_neg h0]
      rw [hscheme t, ht]
      simp
  · intro t h0 hn hs
    simp only [buildTargetUrl, if_neg h0]
    rw [hscheme t, hs]
    simp [hn]

/-- Concrete use of `buildTargetUrl_spec`: a `./`-prefixed relative path is
normalized before the permalink is built. -/
theorem buildTargetUrl_spec_witness :
    buildTargetUrl "acme/repo" "main" (some "./x")
      = some "https://github.com/acme/repo/blob/main/x" := by
  have h := (buildTargetUrl_spec "acme/repo" "main").2.2.2.2.1 "./x"
    (by decide) (by decide) (by decide)
  exact h.trans (by decide)

/-! ### `scan.ts`: the vulnerability report normalizer (C4) -/

structure RawVuln where
  PkgName : Option String
  InstalledVersion : Option String
  VulnerabilityID : Option String
  Severity : Option String
  Title : Option String
  FixedVersion : Option String

structure RawSecret where
  RuleID : Option String
  Severity : Option String
  Title : Option String
  Target : Option String

structure TrivyResult where
  Target : Option String
  Vulnerabilities : Option (List RawVuln)
  Secrets : Option (List RawSecret)

structure TrivyReport where
  Results : Option (List TrivyResult)

inductive VulnKind
  | vuln
  | secret
deriving DecidableEq

structure VulnDetail where
  pkg : String
  version : String
  cve : String
  severity : String
  title : String
  fixedVersion : Option String
  type : VulnKind
  target : String
  targetUrl : Option String
deriving DecidableEq

/-- The `VulnDetailSchema.parse` call for one dependency finding. -/
def mkVulnDetail (fullName scanRef : String) (rTarget : Option String) (v : RawVuln) :
    VulnDetail where
  pkg := v.PkgName.getD "unknown"
  version := v.InstalledVersion.getD ""
  cve := v.VulnerabilityID.getD ""
  severity := v.Severity.getD "UNKNOWN"
  title := v.Title.getD ""
  fixedVersion := v.FixedVersion
  type := VulnKind.vuln
  target := rTarget.getD ""
  targetUrl := buildTargetUrl fullName scanRef rTarget

/-- The `VulnDetailSchema.parse` call for one secret finding; the secret's
own target falls back to the enclosing result's target. -/
def mkSecretDetail (fullName scanRef : String) (rTarget : Option String) (s : RawSecret) :
    VulnDetail :=
  let secretTarget := s.Target.orElse (fun _ => rTarget)
  { pkg := "repo"
    version := ""
    cve := s.RuleID.getD "secret"
    severity := s.Severity.getD "CRITICAL"
    title := s.Title.getD "Secret Found"
    fixedVersion := none
    type := VulnKind.secret
    target := secretTarget.getD ""
    targetUrl := buildTargetUrl fullName scanRef secretTarget }

/-- The dedup key, `vuln:pkg@version:cve` for dependency findings and
`secret:cve:title` for secrets, exactly as interpolated in the source. -/
def dedupKey (d : VulnDetail) : String :=
  match d.type with
  | VulnKind.vuln => "vuln:" ++ d.pkg ++ "@" ++ d.version ++ ":" ++ d.cve
  | VulnKind.secret => "secret:" ++ d.cve ++ ":" ++ d.title

/-- The summary line pushed alongside each detail record. -/
def summaryLine (d : VulnDetail) : String :=
  match d.type with
  | VulnKind.vuln =>
    if d.cve ≠ "" then d.pkg ++ "@" ++ d.version ++ " (" ++ d.cve ++ ")"
    else d.pkg ++ "@" ++ d.version
  | VulnKind.secret => "Secret: " ++ d.title

structure ExtractState where
  seen : List String
  summary : List String
  details : List VulnDetail

/-- The shared `seen`-set guard: skip a finding whose key was already seen,
else push its key, summary line and detail record. -/
def dedupStep (st : ExtractState) (d : VulnDetail) : ExtractState :=
  if dedupKey d ∈ st.seen then st
  else { seen := st.seen ++ [dedupKey d]
         summary := st.summary ++ [summaryLine d]
         details := st.details ++ [d] }

/-- One result of the report: its dependency findings then its secrets. -/
def processResult (fullName scanRef : String) (st : ExtractState) (r : TrivyResult) :
    ExtractState :=
  let st1 := (r.Vulnerabilities.getD []).foldl
    (fun st v => dedupStep st (mkVulnDetail fullName scanRef r.Target v)) st
  (r.Secrets.getD []).foldl
    (fun st s => dedupStep st (mkSecretDetail fullName scanRef r.Target s)) st1

/-- Lexicographic comparison of character lists, modelling the default
`Array.prototype.sort()` string ordering. -/
def lexLe : List Char → List Char → Bool
  | [], _ => true
  | _ :: _, [] => false
  | a :: as, b :: bs => if a = b then lexLe as bs else decide (a < b)

/-- Default JavaScript string ordering, as a relation for sorting. -/
def StrLe (a b : String) : Prop := lexLe a.data b.data = true

instance : DecidableRel StrLe := fun a b => instDecidableEqBool (lexLe a.data b.data) true

/-- `extractVulnerabilityDetails` from `scripts/scan.ts`: fold the report
through the dedup guard, then return the sorted summary and the details in
discovery order. -/
def extractVulnerabilityDetails (report : TrivyReport) (fullName scanRef : String) :
    List String × List VulnDetail :=
  let st := (report.Results.getD []).foldl (processResult fullName scanRef) ⟨[], [], []⟩
  (List.insertionSort StrLe st.summary, st.details)

/-- All detail records one result would yield with no deduplication,
in the source's iteration order. -/
def resultDetails (fullName scanRef : String) (r : TrivyResult) : List VulnDetail :=
  (r.Vulnerabilities.getD []).map (mkVulnDetail fullName scanRef r.Target)
    ++ (r.Secrets.getD []).map (mkSecretDetail fullName scanRef r.Target)

/-- All detail records of the report with no deduplication, in order. -/
def allDetails (report : TrivyReport) (fullName scanRef : String) : List VulnDetail :=
  ((report.Results.getD []).map (resultDetails fullName scanRef)).flatten

/-- The invariant carried through the extraction fold. -/
def ExtractInv (st : ExtractState) : Prop :=
  (st.details.map dedupKey).Nodup
    ∧ st.summary = st.details.map summaryLine
    ∧ ∀ d ∈ st.details, dedupKey d ∈ st.seen

theorem extractInv_dedupStep (st : ExtractState) (d : VulnDetail) (h : ExtractInv st) :
    ExtractInv (dedupStep st d) := by
  obtain ⟨h1, h2, h3⟩ := h
  unfold dedupStep
  split_ifs with hk
  · exact ⟨h1, h2, h3⟩
  · refine ⟨?_, ?_, ?_⟩
    · simp only [List.map_append, List.map_cons, List.map_nil]
      rw [List.nodup_append]
      refine ⟨h1, List.nodup_singleton _, ?_⟩
      intro k hkmem
      simp only [List.mem_singleton]
      intro hkd
      subst hkd
      obtain ⟨d', hd', hkey⟩ := List.mem_map.mp hkmem
      exact hk (hkey ▸ h3 d' hd')
    · simp [h2]
    · intro d' hd'
      rcases List.mem_append.mp hd' with hmem | hmem
      · exact List.mem_append_left _ (h3 d' hmem)
      · simp only [List.mem_singleton] at hmem
        subst hmem
        simp
theorem extractInv_foldl {α : Type} (mk : α → VulnDetail) (xs : List α)
    (st : ExtractState) (h : ExtractInv st) :
    ExtractInv (xs.foldl (fun st x => dedupStep st (mk x)) st) := by
  induction xs generalizing st with
  | nil => exact h
  | cons x xs ih => exact ih _ (extractInv_dedupStep st (mk x) h)

theorem extractInv_processResult (fullName scanRef : String) (st : ExtractState)
    (r : TrivyResult) (h : ExtractInv st) :
    ExtractInv (processResult fullName scanRef st r) :=
  extractInv_foldl _ _ _ (extractInv_foldl _ _ _ h)

theorem extractInv_report (fullName scanRef : String) (rs : List TrivyResult)
    (st : ExtractState) (h : ExtractInv st) :
    ExtractInv (rs.foldl (processResult fullName scanRef) st) := by
  induction rs generalizing st with
  | nil => exact h
  | cons r rs ih => exact ih _ (extractInv_processResult fullName scanRef st r h)

theorem lexLe_total (l1 l2 : List Char) : lexLe l1 l2 = true ∨ lexLe l2 l1 = true := by
  induction l1 generalizing l2 with
  | nil => left; rfl
  | cons a as ih =>
    cases l2 with
    | nil => right; rfl
    | cons b bs =>
      by_cases hab : a = b
      · subst hab
        simpa [lexLe] using ih bs
      · rcases lt_or_gt_of_ne hab with h | h
        · left; simp [lexLe, hab, h]
        · right
          have hba : ¬b = a := fun e => hab e.symm
          simp [lexLe, hba, h]

theorem lexLe_trans (l1 l2 l3 : List Char) (h12 : lexLe l1 l2 = true)
    (h23 : lexLe l2 l3 = true) : lexLe l1 l3 = true := by
  induction l1 generalizing l2 l3 with
  | nil => rfl
  | cons a as ih =>
    cases l2 with
    | nil => simp [lexLe] at h12
    | cons b bs =>
      cases l3 with
      | nil => simp [lexLe] at h23
      | cons c cs =>
        by_cases hab : a = b <;> by_cases hbc : b = c
        · subst hab; subst hbc
          simp only [lexLe, if_pos rfl] at h12 h23 ⊢
          exact ih bs cs h12 h23
        · subst hab
          simp only [lexLe, if_pos rfl, if_neg hbc] at h23 ⊢
          exact h23
        · subst hbc
          simp only [lexLe, if_pos rfl, if_neg hab] at h12 ⊢
          exact h12
        · simp only [lexLe, if_neg hab, decide_eq_true_eq] at h12
          simp only [lexLe, if_neg hbc, decide_eq_true_eq] at h23
          have hac : a < c := lt_trans h12 h23
          simp [lexLe, ne_of_lt hac, hac]

instance : IsTotal String StrLe := ⟨fun a b => lexLe_total a.data b.data⟩

instance : IsTrans String StrLe := ⟨fun a b c => lexLe_trans a.data b.data c.data⟩

theorem foldl_dedup_details_append {α : Type} (mk : α → VulnDetail) (xs : List α)
    (st : ExtractState) :
    ∃ t, (xs.foldl (fun st x => dedupStep st (mk x)) st).details = st.details ++ t
      ∧ t.Sublist (xs.map mk) := by
  induction xs generalizing st with
  | nil => exact ⟨[], by simp, by simp⟩
  | cons x xs ih =>
    simp only [List.foldl_cons, List.map_cons]
    by_cases hk : dedupKey (mk x) ∈ st.seen
    · have hst : dedupStep st (mk x) = st := by simp [dedupStep, hk]
      rw [hst]
      obtain ⟨t, h1, h2⟩ := ih st
      exact ⟨t, h1, h2.cons _⟩
    · obtain ⟨t, h1, h2⟩ := ih (dedupStep st (mk x))
      refine ⟨mk x :: t, ?_, h2.cons₂ _⟩
      rw [h1]
      simp [dedupStep, hk]

theorem processResult_details_append (fullName scanRef : String) (st : ExtractState)
    (r : TrivyResult) :
    ∃ t, (processResult fullName scanRef st r).details = st.details ++ t
      ∧ t.Sublist (resultDetails fullName scanRef r) := by
  unfold processResult resultDetails
  obtain ⟨t1, h1, hs1⟩ :=
    foldl_dedup_details_append (mkVulnDetail fullName scanRef r.Target)
      (r.Vulnerabilities.getD []) st
  obtain ⟨t2, h2, hs2⟩ :=
    foldl_dedup_details_append (mkSecretDetail fullName scanRef r.Target)
      (r.Secrets.getD [])
      ((r.Vulnerabilities.getD []).foldl
        (fun st v => dedupStep st (mkVulnDetail fullName scanRef r.Target v)) st)
  refine ⟨t1 ++ t2, ?_, hs1.append hs2⟩
  rw [h2, h1, List.append_assoc]

theorem report_details_append (fullName scanRef : String) (rs : List TrivyResult)
    (st : ExtractState) :
    ∃ t, (rs.foldl (processResult fullName scanRef) st).details = st.details ++ t
      ∧ t.Sublist ((rs.map (resultDetails fullName scanRef)).flatten) := by
  induction rs generalizing st with
  | nil => exact ⟨[], by simp, by simp⟩
  | cons r rs ih =>
    simp only [List.foldl_cons, List.map_cons, List.flatten_cons]
    obtain ⟨t1, h1, hs1⟩ := processResult_details_append fullName scanRef st r
    obtain ⟨t2, h2, hs2⟩ := ih (processResult fullName scanRef st r)
    refine ⟨t1 ++ t2, ?_, hs1.append hs2⟩
    rw [h2, h1, List.append_assoc]

/-- C4: within one scan no two emitted detail records share a dedup key, the
sorted summary has exactly one line per detail record (it is a permutation
of the details' summary lines, so the lengths agree), the summary is
returned lexicographically sorted, and the details are returned in
discovery order (a subsequence of all findings in iteration order). -/
theorem extractVulnerabilityDetails_spec (report : TrivyReport) (fullName scanRef : String) :
    (((extractVulnerabilityDetails report fullName scanRef).2.map dedupKey).Nodup)
    ∧ (extractVulnerabilityDetails report fullName scanRef).1.length
        = (extractVulnerabilityDetails report fullName scanRef).2.length
    ∧ (extractVulnerabilityDetails report fullName scanRef).1.Sorted StrLe
    ∧ List.Perm (extractVulnerabilityDetails report fullName scanRef).1
        ((extractVulnerabilityDetails report fullName scanRef).2.map summaryLine)
    ∧ (extractVulnerabilityDetails report fullName scanRef).2.Sublist
        (allDetails report fullName scanRef) := by
  obtain ⟨hnodup, hsum, -⟩ :=
    extractInv_report fullName scanRef (report.Results.getD []) ⟨[], [], []⟩
      ⟨by simp, by simp, by simp⟩
  obtain ⟨t, ht, hsub⟩ :=
    report_details_append fullName scanRef (report.Results.getD []) ⟨[], [], []⟩
  simp only [extractVulnerabilityDetails]
  have hperm :
      List.Perm
        (List.insertionSort StrLe
          ((report.Results.getD []).foldl (processResult fullName scanRef) ⟨[], [], []⟩).summary)
        ((report.Results.getD []).foldl (processResult fullName scanRef) ⟨[], [], []⟩).summary :=
    List.perm_insertionSort _ _
  refine ⟨hnodup, ?_, List.sorted_insertionSort _ _, ?_, ?_⟩
  · rw [hperm.length_eq, hsum, List.length_map]
  · exact hperm.trans (by rw [hsum])
  · rw [show ((report.Results.getD []).foldl (processResult fullName scanRef)
      ⟨[], [], []⟩).details = t from by simpa using ht]
    exact hsub

/-! ### `lib/github.ts`: the rate-limited gateway (C3) -/

/-- Leading decimal digits of a character list. -/
def digitsPrefix : List Char → List Char
  | c :: cs => if c.isDigit then c :: digitsPrefix cs else []
  | [] => []

/-- Value of a digit list read in base 10. -/
def digitsToNat (cs : List Char) : Nat :=
  cs.foldl (fun a c => a * 10 + (c.toNat - 48)) 0

/-- `parseInt(s, 10)`: skip leading whitespace, read an optional sign and
then the maximal digit prefix; `none` models `NaN` (no digits at all). -/
def jsParseInt (s : String) : Option Int :=
  let t := s.data.dropWhile Char.isWhitespace
  match t with
  | '-' :: rest =>
    let ds := digitsPrefix rest
    if ds.isEmpty then none else some (-(digitsToNat ds : Int))
  | '+' :: rest =>
    let ds := digitsPrefix rest
    if ds.isEmpty then none else some (digitsToNat ds)
  | _ =>
    let ds := digitsPrefix t
    if ds.isEmpty then none else some (digitsToNat ds)

/-- One observed HTTP response: the status, the two rate-limit headers
(`none` models an absent header), the body, and the value of `Date.now()`
at the moment the response is handled. -/
structure HttpResponse where
  status : Nat
  retryAfter : Option String
  rateLimitReset : Option String
  body : String
  now : Int
deriving DecidableEq

/-- `response.status === 403 || response.status === 429`. -/
def isRateLimited (status : Nat) : Bool := status == 403 || status == 429

/-- The wait computation of `fetchWithRetry` for one 403/429 response.
`none` models a `NaN` wait (a non-numeric reset header), which
`setTimeout` then treats as a zero-millisecond sleep. -/
def computeWaitMs (r : HttpResponse) : Option Int :=
  let w1 : Int :=
    match r.retryAfter with
    | some ra =>
      if ra = "" then 0
      else
        match jsParseInt ra with
        | none => 90000
        | some secs => min (secs * 1000) 300000
    | none => 0
  if w1 ≠ 0 then some w1
  else
    match r.rateLimitReset with
    | some reset =>
      if reset = "" then some 90000
      else
        match jsParseInt reset with
        | none => none
        | some resetSecs =>
          some (min (max (resetSecs * 1000 - r.now) 1000 + 1000) 300000)
    | none => some 90000

inductive FetchResult
  | success (r : HttpResponse)
  | apiError (status : Nat) (body : String)
  | maxRetriesExceeded
deriving DecidableEq

/-- The `while (attempt < maxRetries)` loop of `fetchWithRetry`, with the
remaining fuel `maxRetries - attempt`; returns the outcome and the list of
computed sleep durations. -/
def fetchWithRetryGo (responses : Nat → HttpResponse) :
    Nat → Nat → FetchResult × List (Option Int)
  | _, 0 => (FetchResult.maxRetriesExceeded, [])
  | attempt, fuel + 1 =>
    let r := responses attempt
    if isRateLimited r.status then
      let rest := fetchWithRetryGo responses (attempt + 1) fuel
      (rest.1, computeWaitMs r :: rest.2)
    else if 200 ≤ r.status ∧ r.status < 300 then
      (FetchResult.success r, [])
    else
      (FetchResult.apiError r.status r.body, [])

/-- `GitHubClient.fetchWithRetry` over a stream of responses, 5 attempts. -/
def fetchWithRetry (responses : Nat → HttpResponse) : FetchResult × List (Option Int) :=
  fetchWithRetryGo responses 0 5

/-- `retryAfterIdle r` holds when the `Retry-After` header leaves the wait
at zero: absent, empty, or parsing to the integer 0. -/
def retryAfterIdle (r : HttpResponse) : Prop :=
  r.retryAfter = none ∨ r.retryAfter = some "" ∨
    ∃ ra, r.retryAfter = some ra ∧ jsParseInt ra = some 0

theorem fetchWithRetryGo_all_limited (responses : Nat → HttpResponse)
    (attempt fuel : Nat)
    (h : ∀ i, attempt ≤ i → i < attempt + fuel → isRateLimited (responses i).status = true) :
    fetchWithRetryGo responses attempt fuel =
      (FetchResult.maxRetriesExceeded,
        (List.range fuel).map (fun j => computeWaitMs (responses (attempt + j)))) := by
  induction fuel generalizing attempt with
  | zero => rfl
  | succ fuel ih =>
    have hrl : isRateLimited (responses attempt).status = true :=
      h attempt le_rfl (by omega)
    simp only [fetchWithRetryGo, hrl, if_pos]
    rw [ih (attempt + 1) (fun i h1 h2 => h i (by omega) (by omega))]
    rw [List.range_succ_eq_map]
    simp only [List.map_cons, List.map_map, Function.comp, Nat.add_zero]
    congr 1
    congr 1
    apply List.map_congr_left
    intro j _
    exact congrArg (fun n => computeWaitMs (responses n)) (by omega)

theorem fetchWithRetryGo_first_settled (responses : Nat → HttpResponse)
    (k : Nat) :
    ∀ attempt fuel, k < fuel →
    (∀ i, attempt ≤ i → i < attempt + k → isRateLimited (responses i).status = true) →
    isRateLimited (responses (attempt + k)).status = false →
    fetchWithRetryGo responses attempt fuel =
      ((if 200 ≤ (responses (attempt + k)).status ∧ (responses (attempt + k)).status < 300 then
          FetchResult.success (responses (attempt + k))
        else
          FetchResult.apiError (responses (attempt + k)).status (responses (attempt + k)).body),
        (List.range k).map (fun j => computeWaitMs (responses (attempt + j)))) := by
  induction k with
  | zero =>
    intro attempt fuel hk hpre hnon
    obtain ⟨fuel, rfl⟩ : ∃ f, fuel = f + 1 := ⟨fuel - 1, by omega⟩
    rw [Nat.add_zero] at hnon
    simp only [fetchWithRetryGo, hnon, Bool.false_eq_true, if_false, Nat.add_zero,
      List.range_zero, List.map_nil]
    split_ifs <;> rfl
  | succ k ih =>
    intro attempt fuel hk hpre hnon
    obtain ⟨fuel, rfl⟩ : ∃ f, fuel = f + 1 := ⟨fuel - 1, by omega⟩
    have hrl : isRateLimited (responses attempt).status = true :=
      hpre attempt le_rfl (by omega)
    simp only [fetchWithRetryGo, hrl, if_pos]
    have harith : attempt + 1 + k = attempt + (k + 1) := by omega
    rw [ih (attempt + 1) fuel (by omega)
      (fun i h1 h2 => hpre i (by omega) (by omega)) (by rw [harith]; exact hnon)]
    rw [harith, List.range_succ_eq_map]
    simp only [List.map_cons, List.map_map, Function.comp, Nat.add_zero]
    congr 1
    congr 1
    apply List.map_congr_left
    intro j _
    exact congrArg (fun n => computeWaitMs (responses n)) (by omega)

/-- C3 (amended): at most 5 attempts, each 403/429 response sleeps its
computed wait and retries, the first settled response either succeeds
(2xx) or fails with that response's status and body; a positive
`Retry-After` of `n` seconds waits `min(n*1000ms, 5min)` (so within
`[1s, 5min]`), a non-numeric `Retry-After` waits the 90s default, an
idle `Retry-After` falls through to the reset header, whose numeric value
waits `min(max(reset*1000 - now, 1s) + 1s, 5min)` (within `[2s, 5min]`),
whose non-numeric value yields a `NaN` (zero) wait, and whose absence
yields the 90s default. -/
theorem fetchWithRetry_spec (responses : Nat → HttpResponse) (k : Nat) :
    ((∀ i, i < 5 → isRateLimited (responses i).status = true) →
      fetchWithRetry responses =
        (FetchResult.maxRetriesExceeded,
          (List.range 5).map (fun j => computeWaitMs (responses j))))
    ∧ (k < 5 → (∀ i, i < k → isRateLimited (responses i).status = true) →
        isRateLimited (responses k).status = false →
        fetchWithRetry responses =
          ((if 200 ≤ (responses k).status ∧ (responses k).status < 300 then
              FetchResult.success (responses k)
            else FetchResult.apiError (responses k).status (responses k).body),
            (List.range k).map (fun j => computeWaitMs (responses j))))
    ∧ (∀ r : HttpResponse, ∀ ra : String, ∀ n : Int, r.retryAfter = some ra → ra ≠ "" →
        jsParseInt ra = some n → n ≠ 0 →
        computeWaitMs r = some (min (n * 1000) 300000))
    ∧ (∀ n : Int, 1 ≤ n → 1000 ≤ min (n * 1000) 300000 ∧ min (n * 1000) 300000 ≤ 300000)
    ∧ (∀ r : HttpResponse, ∀ ra : String, r.retryAfter = some ra → ra ≠ "" →
        jsParseInt ra = none → computeWaitMs r = some 90000)
    ∧ (∀ r : HttpResponse, retryAfterIdle r → ∀ rs : String, ∀ v : Int,
        r.rateLimitReset = some rs → rs ≠ "" → jsParseInt rs = some v →
        computeWaitMs r = some (min (max (v * 1000 - r.now) 1000 + 1000) 300000)
          ∧ 2000 ≤ min (max (v * 1000 - r.now) 1000 + 1000) 300000
          ∧ min (max (v * 1000 - r.now) 1000 + 1000) 300000 ≤ 300000)
    ∧ (∀ r : HttpResponse, retryAfterIdle r → ∀ rs : String,
        r.rateLimitReset = some rs → rs ≠ "" → jsParseInt rs = none →
        computeWaitMs r = none)
    ∧ (∀ r : HttpResponse, retryAfterIdle r →
        (r.rateLimitReset = none ∨ r.rateLimitReset = some "") →
        computeWaitMs r = some 90000) := by
  have hidle : ∀ r : HttpResponse, retryAfterIdle r →
      (match r.retryAfter with
        | some ra =>
          if ra = "" then (0 : Int)
          else
            match jsParseInt ra with
            | none => 90000
            | some secs => min (secs * 1000) 300000
        | none => 0) = 0 := by
    intro r hr
    rcases hr with h | h | ⟨ra, h, hp⟩ <;> rw [h]
    · simp
    · by_cases he : ra = ""
      · simp [he]
      · simp [he, hp]
  refine ⟨?_, ?_, ?_, ?_, ?_, ?_, ?_, ?_⟩
  · intro h
    have := fetchWithRetryGo_all_limited responses 0 5
      (fun i h1 h2 => h i (by omega))
    simpa [fetchWithRetry] using this
  · intro hk hpre hnon
    have := fetchWithRetryGo_first_settled responses k 0 5 hk
      (fun i h1 h2 => hpre i (by omega)) (by simpa using hnon)
    simpa [fetchWithRetry] using this
  · intro r ra n hra hne hp hn0
    have hmin : ¬(min (n * 1000) 300000 = 0) := by
      rcases lt_or_gt_of_ne hn0 with h | h <;> omega
    simp only [computeWaitMs, hra, if_neg hne, hp]
    rw [if_pos (by simpa using hmin)]
  · intro n hn
    omega
  · intro r ra hra hne hp
    simp only [computeWaitMs, hra, if_neg hne, hp]
    rw [if_pos (by norm_num)]
  · intro r hr rs v hrs hne hp
    refine ⟨?_, by omega, by omega⟩
    simp only [computeWaitMs, hidle r hr, hrs, if_neg hne, hp]
    simp
  · intro r hr rs hrs hne hp
    simp only [computeWaitMs, hidle r hr, hrs, if_neg hne, hp]
    simp
  · intro r hr hrs
    rcases hrs with h | h <;>
      simp only [computeWaitMs, hidle r hr, h] <;> simp

/-- C3 counterexample: a 403 response with `Retry-After: -5` makes every
retry sleep a computed wait of `-5000` milliseconds, which is below the
claimed 1-second lower clamp (`setTimeout` treats it as zero). -/
theorem fetchWithRetry_counterexample :
    (fetchWithRetry (fun _ => ⟨403, some "-5", none, "", 0⟩)).2 =
      List.replicate 5 (some (-5000))
    ∧ ¬(1000 ≤ (-5000 : Int)) := by
  constructor
  · rfl
  · decide

/-- Concrete use of `fetchWithRetry_spec`: an immediate 200 response
succeeds with no sleeps. -/
theorem fetchWithRetry_spec_witness :
    fetchWithRetry (fun _ => ⟨200, none, none, "ok", 0⟩) =
      (FetchResult.success ⟨200, none, none, "ok", 0⟩, []) := by
  have h := (fetchWithRetry_spec (fun _ => ⟨200, none, none, "ok", 0⟩) 0).2.1
    (by decide) (fun i hi => absurd hi (Nat.not_lt_zero i)) (by decide)
  exact h.trans (by decide)

/-! ### `detect.ts`: the commit size aggregator (C6) -/

/-- One commit entry as used by `analyzeCommitSizes`: only its optional sha
matters. -/
structure CommitRef where
  sha : Option String

/-- The sampled shas: commits with a string sha, first 8 in listed order. -/
def sampleShas (commits : List CommitRef) : List String :=
  ((commits.map (fun c => c.sha)).filterMap id).take 8

/-- The per-sample change totals.  The oracle `fetchTotal i` is the outcome
of the stats fetch for the `i`-th sampled sha: `none` models a thrown
fetch (or a non-finite total), recorded as zero changes. -/
def sampleTotals (fetchTotal : Nat → Option Nat) (commits : List CommitRef) : List Nat :=
  (List.range (sampleShas commits).length).map (fun i => (fetchTotal i).getD 0)

/-- `analyzeCommitSizes` from `scripts/detect.ts`: mean (rounded half-up),
median with even-count midpoint averaging, and the count of totals of at
least 500 changed lines. -/
def analyzeCommitSizes (fetchTotal : Nat → Option Nat) (commits : List CommitRef) :
    CommitSizeSignals :=
  let sample := sampleShas commits
  if sample.length = 0 then
    { sampledCommits := 0, avgChanges := 0, medianChanges := 0, largeCommitCount := 0 }
  else
    let totals := sampleTotals fetchTotal commits
    let sampledCommits := totals.length
    let sorted := List.insertionSort (fun a b => a ≤ b) totals
    let sum := totals.foldl (fun acc n => acc + n) 0
    let medianChanges :=
      if sampledCommits % 2 = 1 then sorted.getD (sampledCommits / 2) 0
      else (sorted.getD (sampledCommits / 2 - 1) 0 + sorted.getD (sampledCommits / 2) 0 + 1) / 2
    { sampledCommits := sampledCommits
      avgChanges := (2 * sum + sampledCommits) / (2 * sampledCommits)
      medianChanges := medianChanges
      largeCommitCount := (totals.filter (fun n => 500 ≤ n)).length }

theorem foldl_add_acc (l : List Nat) (a : Nat) :
    l.foldl (fun acc n => acc + n) a = a + l.sum := by
  induction l generalizing a with
  | nil => simp
  | cons x xs ih => simp [ih, List.sum_cons]; omega

/-- C6: the aggregator samples the first 8 resolvable shas in order (the
sample count is `min 8` of the available shas), a failed stats fetch
contributes zero changes without aborting, the mean is the rounded
arithmetic mean (within half of the exact mean), the median is the middle
sorted total for odd counts and the rounded midpoint of the two middle
sorted totals for even counts, and the large-commit count is the number of
sampled totals of at least 500. -/
theorem analyzeCommitSizes_spec (fetchTotal : Nat → Option Nat) (commits : List CommitRef) :
    (sampleShas commits = [] →
      analyzeCommitSizes fetchTotal commits = ⟨0, 0, 0, 0⟩)
    ∧ ((analyzeCommitSizes fetchTotal commits).sampledCommits
        = min 8 ((commits.map (fun c => c.sha)).filterMap id).length)
    ∧ (∀ i, i < (sampleTotals fetchTotal commits).length → fetchTotal i = none →
        (sampleTotals fetchTotal commits).getD i 0 = 0)
    ∧ (sampleShas commits ≠ [] →
        (2 * (sampleTotals fetchTotal commits).length)
            * (analyzeCommitSizes fetchTotal commits).avgChanges
          ≤ 2 * (sampleTotals fetchTotal commits).sum
            + (sampleTotals fetchTotal commits).length
        ∧ 2 * (sampleTotals fetchTotal commits).sum
          ≤ (2 * (sampleTotals fetchTotal commits).length)
              * (analyzeCommitSizes fetchTotal commits).avgChanges
            + (sampleTotals fetchTotal commits).length)
    ∧ (sampleShas commits ≠ [] →
        ∃ sorted : List Nat,
          List.Perm sorted (sampleTotals fetchTotal commits)
          ∧ sorted.Sorted (· ≤ ·)
          ∧ ((sampleTotals fetchTotal commits).length % 2 = 1 →
              (analyzeCommitSizes fetchTotal commits).medianChanges
                = sorted.getD ((sampleTotals fetchTotal commits).length / 2) 0)
          ∧ ((sampleTotals fetchTotal commits).length % 2 = 0 →
              2 * (analyzeCommitSizes fetchTotal commits).medianChanges
                ≤ sorted.getD ((sampleTotals fetchTotal commits).length / 2 - 1) 0
                  + sorted.getD ((sampleTotals fetchTotal commits).length / 2) 0 + 1
              ∧ sorted.getD ((sampleTotals fetchTotal commits).length / 2 - 1) 0
                  + sorted.getD ((sampleTotals fetchTotal commits).length / 2) 0
                ≤ 2 * (analyzeCommitSizes fetchTotal commits).medianChanges + 1))
    ∧ (sampleShas commits ≠ [] →
        (analyzeCommitSizes fetchTotal commits).largeCommitCount
          = ((sampleTotals fetchTotal commits).filter (fun n => 500 ≤ n)).length) := by
  have hlen : (sampleTotals fetchTotal commits).length = (sampleShas commits).length := by
    simp [sampleTotals]
  refine ⟨?_, ?_, ?_, ?_, ?_, ?_⟩
  · intro h
    simp [analyzeCommitSizes, h]
  · have hL : (sampleShas commits).length
        = min 8 ((commits.map (fun c => c.sha)).filterMap id).length := by
      simp only [sampleShas, List.length_take]
    by_cases h : (sampleShas commits).length = 0
    · simp only [analyzeCommitSizes, if_pos h]
      rw [← hL, h]
    · simp only [analyzeCommitSizes, if_neg h]
      rw [hlen]
      exact hL
  · intro i hi hnone
    simp only [sampleTotals] at hi ⊢
    rw [List.getD_eq_getElem?_getD]
    rw [List.getElem?_map]
    simp only [List.length_map, List.length_range] at hi
    simp [List.getElem?_range hi, hnone]
  · intro h
    have h0 : (sampleShas commits).length ≠ 0 := by
      simpa using fun e => h (List.eq_nil_of_length_eq_zero e)
    simp only [analyzeCommitSizes, if_neg h0, hlen]
    rw [foldl_add_acc, Nat.zero_add]
    have hdm := Nat.div_add_mod
      (2 * (sampleTotals fetchTotal commits).sum + (sampleShas commits).length)
      (2 * (sampleShas commits).length)
    have hmod := Nat.mod_lt
      (2 * (sampleTotals fetchTotal commits).sum + (sampleShas commits).length)
      (y := 2 * (sampleShas commits).length) (by omega)
    omega
  · intro h
    have h0 : (sampleShas commits).length ≠ 0 := by
      simpa using fun e => h (List.eq_nil_of_length_eq_zero e)
    refine ⟨List.insertionSort (fun a b => a ≤ b) (sampleTotals fetchTotal commits),
      List.perm_insertionSort _ _, List.sorted_insertionSort _ _, ?_, ?_⟩
    · intro hodd
      simp only [analyzeCommitSizes, if_neg h0, hlen] at hodd ⊢
      rw [if_pos hodd]
    · intro heven
      simp only [analyzeCommitSizes, if_neg h0, hlen] at heven ⊢
      rw [if_neg (by omega)]
      set x := (List.insertionSort (fun a b => a ≤ b)
        (sampleTotals fetchTotal commits)).getD ((sampleShas commits).length / 2 - 1) 0
      set y := (List.insertionSort (fun a b => a ≤ b)
        (sampleTotals fetchTotal commits)).getD ((sampleShas commits).length / 2) 0
      have hdm := Nat.div_add_mod (x + y + 1) 2
      have hmod := Nat.mod_lt (x + y + 1) (y := 2) (by omega)
      omega
  · intro h
    have h0 : (sampleShas commits).length ≠ 0 := by
      simpa using fun e => h (List.eq_nil_of_length_eq_zero e)
    simp only [analyzeCommitSizes, if_neg h0]

/-- Concrete use of `analyzeCommitSizes_spec`: two sampled commits, one
fetch failing (counted as zero), one commit of 600 changed lines. -/
theorem analyzeCommitSizes_spec_witness :
    (analyzeCommitSizes (fun i => if i = 0 then some 600 else none)
        [⟨some "a"⟩, ⟨some "b"⟩]).largeCommitCount = 1 := by
  have h := (analyzeCommitSizes_spec (fun i => if i = 0 then some 600 else none)
      [⟨some "a"⟩, ⟨some "b"⟩]).2.2.2.2.2 (by decide)
  exact h.trans (by decide)

/-! ### `detect.ts`: evidence collection in `hasCursorOrClaude` (C7) -/

structure FileSignal where
  tool : String
  path : String
  isDirectory : Bool
deriving DecidableEq

/-- The ordered file-presence probe list of `hasCursorOrClaude`. -/
def fileSignals : List FileSignal :=
  [ ⟨"cursor", ".cursor", true⟩,
    ⟨"cursor", ".cursorrules", false⟩,
    ⟨"cursor", ".cursor/rules", true⟩,
    ⟨"claude", "CLAUDE.md", false⟩,
    ⟨"claude", "claude.md", false⟩,
    ⟨"claude", "AGENTS.md", false⟩,
    ⟨"copilot", ".github/copilot-instructions.md", false⟩,
    ⟨"windsurf", ".windsurfrules", false⟩,
    ⟨"gemini", "GEMINI.md", false⟩,
    ⟨"aider", ".aider.conf.yml", false⟩ ]

/-- The evidence URL built for a file signal: `tree` for directories,
`blob` for files, on the resolved default branch. -/
def fileEvidenceUrl (fullName defaultBranch : String) (s : FileSignal) : String :=
  "https://github.com/" ++ fullName ++ "/" ++ (if s.isDirectory then "tree" else "blob")
    ++ "/" ++ defaultBranch ++ "/" ++ s.path

/-- The mutable state of one detection pass: recorded evidence, the
`seenTools` set, and the trace of `hasPath` probes actually issued. -/
structure ProbeState where
  aiTools : List DetectionEvidence
  seenTools : List String
  probedPaths : List FileSignal
deriving DecidableEq

/-- The file-presence loop: every signal's path is probed (`hasPath` is
awaited before the dedup check), then the result is recorded only for a
tool not seen yet. -/
def filePhase (hasPath : String → Bool) (fullName defaultBranch : String) :
    List FileSignal → ProbeState → ProbeState
  | [], st => st
  | s :: rest, st =>
    let st1 : ProbeState := { st with probedPaths := st.probedPaths ++ [s] }
    if !hasPath s.path then filePhase hasPath fullName defaultBranch rest st1
    else if st1.seenTools.contains s.tool then filePhase hasPath fullName defaultBranch rest st1
    else
      filePhase hasPath fullName defaultBranch rest
        { st1 with
          aiTools := st1.aiTools
            ++ [⟨s.tool, DetectedVia.file, fileEvidenceUrl fullName defaultBranch s⟩]
          seenTools := st1.seenTools ++ [s.tool] }

structure RawCommit where
  message : Option String
  html_url : String

/-- The per-commit tool vocabulary, in source order; the `vibe` entry
matches either phrase form. -/
def commitChecks : List (String × List String) :=
  [ ("cursor", ["cursor"]),
    ("claude", ["claude"]),
    ("gemini", ["gemini"]),
    ("copilot", ["copilot"]),
    ("windsurf", ["windsurf"]),
    ("aider", ["aider"]),
    ("vibe", ["vibe coded", "vibe-coded"]) ]

/-- The checks run against one lower-cased commit message. -/
def commitChecksPhase (url msg : String) :
    List (String × List String) → ProbeState → ProbeState
  | [], st => st
  | (tool, pats) :: rest, st =>
    if !st.seenTools.contains tool && pats.any (fun p => jsIncludes msg p) then
      commitChecksPhase url msg rest
        { st with
          aiTools := st.aiTools ++ [⟨tool, DetectedVia.commits, url⟩]
          seenTools := st.seenTools ++ [tool] }
    else commitChecksPhase url msg rest st

/-- The commit-message loop of `hasCursorOrClaude`. -/
def commitPhase : List RawCommit → ProbeState → ProbeState
  | [], st => st
  | c :: rest, st =>
    commitPhase rest (commitChecksPhase c.html_url (jsToLower (c.message.getD "")) commitChecks st)

/-- The evidence-collection core of `hasCursorOrClaude`: file probes first,
then commit probes, sharing one `seenTools` set. -/
def hasCursorOrClaude (hasPath : String → Bool) (fullName defaultBranch : String)
    (commits : List RawCommit) : ProbeState :=
  commitPhase commits (filePhase hasPath fullName defaultBranch fileSignals ⟨[], [], []⟩)

theorem filePhase_delta (hasPath : String → Bool) (fullName defaultBranch : String)
    (sigs : List FileSignal) (st : ProbeState) :
    ∃ d : List DetectionEvidence,
      (filePhase hasPath fullName defaultBranch sigs st).aiTools = st.aiTools ++ d
      ∧ (filePhase hasPath fullName defaultBranch sigs st).seenTools
          = st.seenTools ++ d.map (fun e => e.name)
      ∧ (∀ e ∈ d, e.name ∉ st.seenTools ∧ e.detected_via = DetectedVia.file)
      ∧ (d.map (fun e => e.name)).Nodup := by
  induction sigs generalizing st with
  | nil => exact ⟨[], by simp [filePhase], by simp [filePhase], by simp, by simp⟩
  | cons s rest ih =>
    simp only [filePhase]
    by_cases hp : hasPath s.path
    · simp only [hp, Bool.not_true, Bool.false_eq_true, if_false]
      by_cases hseen : st.seenTools.contains s.tool
      · simp only [hseen, if_true]
        exact ih _
      · simp only [hseen, Bool.false_eq_true, if_false]
        obtain ⟨d, h1, h2, h3, h4⟩ := ih
          { st with
            probedPaths := st.probedPaths ++ [s]
            aiTools := st.aiTools
              ++ [⟨s.tool, DetectedVia.file, fileEvidenceUrl fullName defaultBranch s⟩]
            seenTools := st.seenTools ++ [s.tool] }
        refine ⟨⟨s.tool, DetectedVia.file, fileEvidenceUrl fullName defaultBranch s⟩ :: d,
          ?_, ?_, ?_, ?_⟩
        · simpa [List.append_assoc] using h1
        · simpa [List.append_assoc] using h2
        · intro e he
          rcases List.mem_cons.mp he with rfl | he
          · exact ⟨by simpa using hseen, rfl⟩
          · obtain ⟨hn, hv⟩ := h3 e he
            exact ⟨fun hc => hn (by simp [hc]), hv⟩
        · simp only [List.map_cons, List.nodup_cons]
          refine ⟨?_, h4⟩
          intro hc
          obtain ⟨e, he, hne⟩ := List.mem_map.mp hc
          exact (h3 e he).1 (by simp [hne])
    · simp only [hp, Bool.not_false, if_true]
      exact ih _

theorem commitChecksPhase_delta (url msg : String)
    (checks : List (String × List String)) (st : ProbeState) :
    ∃ d : List DetectionEvidence,
      (commitChecksPhase url msg checks st).aiTools = st.aiTools ++ d
      ∧ (commitChecksPhase url msg checks st).seenTools
          = st.seenTools ++ d.map (fun e => e.name)
      ∧ (commitChecksPhase url msg checks st).probedPaths = st.probedPaths
      ∧ (∀ e ∈ d, e.name ∉ st.seenTools ∧ e.detected_via = DetectedVia.commits)
      ∧ (d.map (fun e => e.name)).Nodup := by
  induction checks generalizing st with
  | nil => exact ⟨[], by simp [commitChecksPhase], by simp [commitChecksPhase],
      by simp [commitChecksPhase], by simp, by simp⟩
  | cons c rest ih =>
    obtain ⟨tool, pats⟩ := c
    simp only [commitChecksPhase]
    by_cases hc : (!st.seenTools.contains tool && pats.any (fun p => jsIncludes msg p)) = true
    · simp only [hc, if_true]
      have hseen : ¬ st.seenTools.contains tool = true := by
        intro h
        have hc' := hc
        rw [Bool.and_eq_true, h] at hc'
        simp at hc'
      obtain ⟨d, h1, h2, h3, h4, h5⟩ := ih
        { st with
          aiTools := st.aiTools ++ [⟨tool, DetectedVia.commits, url⟩]
          seenTools := st.seenTools ++ [tool] }
      refine ⟨⟨tool, DetectedVia.commits, url⟩ :: d, ?_, ?_, h3, ?_, ?_⟩
      · simpa [List.append_assoc] using h1
      · simpa [List.append_assoc] using h2
      · intro e he
        rcases List.mem_cons.mp he with rfl | he
        · exact ⟨by simpa using hseen, rfl⟩
        · obtain ⟨hn, hv⟩ := h4 e he
          exact ⟨fun hx => hn (by simp [hx]), hv⟩
      · simp only [List.map_cons, List.nodup_cons]
        refine ⟨?_, h5⟩
        intro hx
        obtain ⟨e, he, hne⟩ := List.mem_map.mp hx
        exact (h4 e he).1 (by simp [hne])
    · simp only [hc, Bool.false_eq_true, if_false]
      exact ih _

theorem commitPhase_delta (commits : List RawCommit) (st : ProbeState) :
    ∃ d : List DetectionEvidence,
      (commitPhase commits st).aiTools = st.aiTools ++ d
      ∧ (commitPhase commits st).seenTools = st.seenTools ++ d.map (fun e => e.name)
      ∧ (commitPhase commits st).probedPaths = st.probedPaths
      ∧ (∀ e ∈ d, e.name ∉ st.seenTools ∧ e.detected_via = DetectedVia.commits)
      ∧ (d.map (fun e => e.name)).Nodup := by
  induction commits generalizing st with
  | nil => exact ⟨[], by simp [commitPhase], by simp [commitPhase],
      by simp [commitPhase], by simp, by simp⟩
  | cons c rest ih =>
    simp only [commitPhase]
    obtain ⟨d1, h1, h2, h3, h4, h5⟩ :=
      commitChecksPhase_delta c.html_url (jsToLower (c.message.getD "")) commitChecks st
    obtain ⟨d2, g1, g2, g3, g4, g5⟩ :=
      ih (commitChecksPhase c.html_url (jsToLower (c.message.getD "")) commitChecks st)
    refine ⟨d1 ++ d2, ?_, ?_, ?_, ?_, ?_⟩
    · rw [g1, h1, List.append_assoc]
    · rw [g2, h2, List.map_append, List.append_assoc]
    · rw [g3, h3]
    · intro e he
      rcases List.mem_append.mp he with he | he
      · exact h4 e he
      · obtain ⟨hn, hv⟩ := g4 e he
        rw [h2] at hn
        exact ⟨fun hx => hn (List.mem_append_left _ hx), hv⟩
    · rw [List.map_append, List.nodup_append]
      refine ⟨h5, g5, ?_⟩
      intro n hn1 hn2
      obtain ⟨e, he, hne⟩ := List.mem_map.mp hn2
      have := (g4 e he).1
      rw [h2] at this
      exact this (hne ▸ List.mem_append_right _ (by simpa using hn1))

theorem filePhase_probed (hasPath : String → Bool) (fullName defaultBranch : String)
    (sigs : List FileSignal) (st : ProbeState) :
    (filePhase hasPath fullName defaultBranch sigs st).probedPaths
      = st.probedPaths ++ sigs := by
  induction sigs generalizing st with
  | nil => simp [filePhase]
  | cons s rest ih =>
    simp only [filePhase]
    split_ifs <;> simp [ih]

theorem filePhase_filter_of_seen (hasPath : String → Bool) (fullName defaultBranch : String)
    (sigs : List FileSignal) (st : ProbeState) (t : String) (ht : t ∈ st.seenTools) :
    (filePhase hasPath fullName defaultBranch sigs st).aiTools.filter (fun e => e.name == t)
      = st.aiTools.filter (fun e => e.name == t) := by
  induction sigs generalizing st with
  | nil => simp [filePhase]
  | cons s rest ih =>
    simp only [filePhase]
    split_ifs with h1 h2
    · exact ih _ ht
    · exact ih _ ht
    · have hns : s.tool ∉ st.seenTools := by simpa using h2
      have hst : ¬(s.tool == t) = true := fun e => hns (beq_iff_eq.mp e ▸ ht)
      rw [ih _ (List.mem_append_left _ ht), List.filter_append]
      simp [hst]

theorem filePhase_filter (hasPath : String → Bool) (fullName defaultBranch : String)
    (sigs : List FileSignal) (st : ProbeState) (t : String) (ht : t ∉ st.seenTools) :
    (filePhase hasPath fullName defaultBranch sigs st).aiTools.filter (fun e => e.name == t)
      = st.aiTools.filter (fun e => e.name == t)
        ++ (match sigs.find? (fun s => s.tool == t && hasPath s.path) with
            | some s => [⟨t, DetectedVia.file, fileEvidenceUrl fullName defaultBranch s⟩]
            | none => []) := by
  induction sigs generalizing st with
  | nil => simp [filePhase]
  | cons s rest ih =>
    simp only [filePhase]
    split_ifs with h1 h2
    · -- path absent: the probe is skipped and the head cannot be found
      have hp : hasPath s.path = false := by simpa using h1
      rw [List.find?_cons_of_neg _ (by simp [hp])]
      exact ih _ ht
    · -- path present but the tool was already seen, so the tool differs from t
      have hseen : s.tool ∈ st.seenTools := by simpa using h2
      have hst : ¬(s.tool == t) = true := fun e => ht (beq_iff_eq.mp e ▸ hseen)
      rw [List.find?_cons_of_neg _ (by simp only [Bool.and_eq_true]; exact fun hc => hst hc.1)]
      exact ih _ ht
    · -- path present, tool unseen: the head signal is probed and may match t
      have hp : hasPath s.path = true := by simpa using h1
      by_cases hts : (s.tool == t) = true
      · have hts' : s.tool = t := beq_iff_eq.mp hts
        rw [List.find?_cons_of_pos _ (by simp [hts, hp])]
        rw [filePhase_filter_of_seen hasPath fullName defaultBranch rest _ t
          (by simp [hts'])]
        rw [List.filter_append]
        simp [hts, hts']
      · rw [List.find?_cons_of_neg _ (by simp only [Bool.and_eq_true]; exact fun hc => hts hc.1)]
        have ht2 : t ∉ st.seenTools ++ [s.tool] := by
          intro hc
          rcases List.mem_append.mp hc with hc | hc
          · exact ht hc
          · simp only [List.mem_singleton] at hc
            exact hts (by simp [hc])
        rw [ih _ ht2, List.filter_append]
        simp [hts]

/-- C7 (amended): within one detection pass at most one evidence item is
recorded per tool name, the first existing path in list order wins for
file evidence, and the commit probe never re-records a tool that has file
evidence; however every configured path is probed (its `hasPath` call is
awaited) even when the same tool was already recorded, so the dedup
governs recording, not probing. -/
theorem hasCursorOrClaude_spec (hasPath : String → Bool) (fullName defaultBranch : String)
    (commits : List RawCommit) :
    (((hasCursorOrClaude hasPath fullName defaultBranch commits).aiTools.map
        (fun e => e.name)).Nodup)
    ∧ (∀ t : String,
        (hasCursorOrClaude hasPath fullName defaultBranch commits).aiTools.filter
            (fun e => e.name == t && e.detected_via == DetectedVia.file)
          = match fileSignals.find? (fun s => s.tool == t && hasPath s.path) with
            | some s => [⟨t, DetectedVia.file, fileEvidenceUrl fullName defaultBranch s⟩]
            | none => [])
    ∧ (∀ e ∈ (hasCursorOrClaude hasPath fullName defaultBranch commits).aiTools,
        e.detected_via = DetectedVia.commits →
        ∀ s ∈ fileSignals, s.tool = e.name → hasPath s.path = false)
    ∧ (hasCursorOrClaude hasPath fullName defaultBranch commits).probedPaths = fileSignals := by
  obtain ⟨df, hf1, hf2, hf3, hf4⟩ :=
    filePhase_delta hasPath fullName defaultBranch fileSignals ⟨[], [], []⟩
  obtain ⟨dc, hc1, hc2, hc3, hc4, hc5⟩ :=
    commitPhase_delta commits (filePhase hasPath fullName defaultBranch fileSignals ⟨[], [], []⟩)
  simp only [List.nil_append] at hf1 hf2
  have htools : (hasCursorOrClaude hasPath fullName defaultBranch commits).aiTools
      = df ++ dc := by
    rw [hasCursorOrClaude, hc1, hf1]
  have hdcnames : ∀ e ∈ dc, e.name ∉ df.map (fun e => e.name) := by
    intro e he
    have := (hc4 e he).1
    rw [hf2] at this
    exact this
  refine ⟨?_, ?_, ?_, ?_⟩
  · rw [htools, List.map_append, List.nodup_append]
    refine ⟨hf4, hc5, ?_⟩
    intro n hn1 hn2
    obtain ⟨e, he, hne⟩ := List.mem_map.mp hn2
    exact hdcnames e he (hne ▸ hn1)
  · intro t
    rw [htools, List.filter_append]
    have hdc : dc.filter (fun e => e.name == t && e.detected_via == DetectedVia.file) = [] := by
      rw [List.filter_eq_nil_iff]
      intro e he
      rw [(hc4 e he).2]
      simp
    have hdf : df.filter (fun e => e.name == t && e.detected_via == DetectedVia.file)
        = df.filter (fun e => e.name == t) := by
      apply List.filter_congr
      intro e he
      rw [hf3 e he |>.2]
      simp
    rw [hdc, hdf, List.append_nil, ← hf1,
      filePhase_filter hasPath fullName defaultBranch fileSignals ⟨[], [], []⟩ t (by simp)]
    simp
  · intro e he hvia s hs hst
    rw [htools] at he
    rcases List.mem_append.mp he with he | he
    · exact absurd hvia (by rw [(hf3 e he).2]; simp)
    · by_contra hc
      have hp : hasPath s.path = true := by
        rcases Bool.eq_false_or_eq_true (hasPath s.path) with h | h
        · exact h
        · exact absurd h hc
      have hfind : (fileSignals.find? (fun q => q.tool == e.name && hasPath q.path)).isSome := by
        rw [List.find?_isSome]
        exact ⟨s, hs, by simp [hst, hp]⟩
      obtain ⟨s0, hs0⟩ := Option.isSome_iff_exists.mp hfind
      have hfilter := filePhase_filter hasPath fullName defaultBranch fileSignals
        ⟨[], [], []⟩ e.name (by simp)
      rw [hs0] at hfilter
      simp only [List.filter_nil, List.nil_append] at hfilter
      have hmem : (⟨e.name, DetectedVia.file, fileEvidenceUrl fullName defaultBranch s0⟩ :
          DetectionEvidence) ∈ (filePhase hasPath fullName defaultBranch fileSignals
            ⟨[], [], []⟩).aiTools.filter (fun q => q.name == e.name) := by
        rw [hfilter]
        simp
      have := List.mem_of_mem_filter hmem
      rw [hf1] at this
      exact hdcnames e he (List.mem_map.mpr ⟨_, this, rfl⟩)
  · rw [hasCursorOrClaude, hc3, filePhase_probed]
    simp

/-- C7 counterexample: even with no path existing, the file loop issues a
`hasPath` probe for every configured signal, so the same tool (for
instance `cursor`, with three configured paths) is probed repeatedly —
the probe trace's tool names are not distinct, contradicting the claim
that the same tool is never probed twice. -/
theorem hasCursorOrClaude_counterexample :
    ¬ (((hasCursorOrClaude (fun _ => false) "owner/repo" "main" []).probedPaths.map
        (fun s => s.tool)).Nodup) := by
  decide

/-- Concrete use of `hasCursorOrClaude_spec`: with only `CLAUDE.md`
present, the single recorded file evidence for `claude` points at it. -/
theorem hasCursorOrClaude_spec_witness :
    (hasCursorOrClaude (fun p => p == "CLAUDE.md") "acme/repo" "main" []).aiTools.filter
        (fun e => e.name == "claude" && e.detected_via == DetectedVia.file)
      = [⟨"claude", DetectedVia.file, "https://github.com/acme/repo/blob/main/CLAUDE.md"⟩] := by
  have h := (hasCursorOrClaude_spec (fun p => p == "CLAUDE.md")
    "acme/repo" "main" []).2.1 "claude"
  exact h.trans (by decide)

/-! ### `discover.ts`: candidate accumulation and ranking (C5) -/

/-- One search result item, already shaped: `full_name`, `description`,
`stargazers_count` (absent fields model `undefined`). -/
structure SearchItem where
  full_name : String
  description : Option String
  stars : Option Nat

structure DiscoveryCandidate where
  description : Option String
  stars : Nat
  score : Nat
  matchedQueries : List String
deriving DecidableEq

/-- The candidates `Map`, in insertion order. -/
abbrev CandMap := List (String × DiscoveryCandidate)

/-- `candidates.get(k)`. -/
def findCand (m : CandMap) (k : String) : Option DiscoveryCandidate :=
  (List.find? (fun e => e.1 == k) m).map (fun e => e.2)

/-- `candidates.set(k, v)`: update in place if present, else append. -/
def setCand (m : CandMap) (k : String) (v : DiscoveryCandidate) : CandMap :=
  if (List.find? (fun e => e.1 == k) m).isSome then
    List.map (fun e => if e.1 == k then (k, v) else e) m
  else m ++ [(k, v)]

/-- The per-item body of the discovery accumulation loop. -/
def processItem (existingRepos deniedRepos : List String) (queryScore : Nat) (query : String)
    (m : CandMap) (item : SearchItem) : CandMap :=
  let lowerName := jsToLower item.full_name
  if !existingRepos.contains lowerName && !deniedRepos.contains lowerName then
    match findCand m item.full_name with
    | none =>
      let stars := item.stars.getD 0
      let starScore := min 3 (stars / 25)
      let baseScore := queryScore + starScore
      setCand m item.full_name
        { description := item.description
          stars := stars
          score := baseScore
          matchedQueries := [query] }
    | some existing =>
      let stars := item.stars.getD existing.stars
      let starScore := min 3 (stars / 25)
      let baseScore := queryScore + starScore
      setCand m item.full_name
        { description := existing.description.orElse (fun _ => item.description)
          stars := max existing.stars stars
          score := existing.score + baseScore
          matchedQueries :=
            if existing.matchedQueries.contains query then existing.matchedQueries
            else existing.matchedQueries ++ [query] }
  else m

structure SearchQuery where
  query : String
  score : Nat

/-- The discovery query loop: before each query the candidate pool size is
checked against the `8 × limit` cap, and each result item is accumulated. -/
def runQueries (existingRepos deniedRepos : List String) (limit : Nat) :
    List (SearchQuery × List SearchItem) → CandMap → CandMap
  | [], m => m
  | (sq, items) :: rest, m =>
    if limit * 8 ≤ m.length then m
    else runQueries existingRepos deniedRepos limit rest
      (items.foldl (processItem existingRepos deniedRepos sq.score sq.query) m)

/-- The sort comparator `(a, b) => b.score - a.score || b.stars - a.stars`
as an ordering relation: score descending, ties by stars descending. -/
def rankLe (a b : String × DiscoveryCandidate) : Bool :=
  decide (b.2.score < a.2.score)
    || (a.2.score == b.2.score && decide (b.2.stars ≤ a.2.stars))

/-- Rank all accumulated candidates and keep the top `12 × limit`. -/
def rankCandidates (limit : Nat) (m : CandMap) : CandMap :=
  (List.insertionSort (fun a b => rankLe a b = true) m).take (limit * 12)

instance : IsTotal (String × DiscoveryCandidate) (fun a b => rankLe a b = true) := by
  constructor
  intro a b
  simp only [rankLe, Bool.or_eq_true, Bool.and_eq_true, decide_eq_true_eq, beq_iff_eq]
  omega

instance : IsTrans (String × DiscoveryCandidate) (fun a b => rankLe a b = true) := by
  constructor
  intro a b c hab hbc
  simp only [rankLe, Bool.or_eq_true, Bool.and_eq_true, decide_eq_true_eq, beq_iff_eq]
    at hab hbc ⊢
  omega

theorem find?_map_replace (m : CandMap) (k : String) (v : DiscoveryCandidate)
    (h : (List.find? (fun e => e.1 == k) m).isSome) :
    List.find? (fun e => e.1 == k) (List.map (fun e => if e.1 == k then (k, v) else e) m)
      = some (k, v) := by
  induction m with
  | nil => simp at h
  | cons e rest ih =>
    by_cases he : (e.1 == k) = true
    · simp only [List.map_cons, he, if_true]
      rw [List.find?_cons_of_pos _ (by simp)]
    · simp only [List.map_cons, he, Bool.false_eq_true, if_false]
      rw [List.find?_cons_of_neg _ (by simp [he])]
      apply ih
      rw [List.find?_cons_of_neg _ (by simp [he])] at h
      exact h

theorem find?_ne_map_replace (m : CandMap) (k k' : String) (v : DiscoveryCandidate)
    (h : k' ≠ k) :
    List.find? (fun e => e.1 == k') (List.map (fun e => if e.1 == k then (k, v) else e) m)
      = List.find? (fun e => e.1 == k') m := by
  have hkk : ¬(k == k') = true := by
    simp only [beq_iff_eq]
    exact fun x => h x.symm
  induction m with
  | nil => rfl
  | cons e rest ih =>
    by_cases he : (e.1 == k) = true
    · have hek : e.1 = k := beq_iff_eq.mp he
      simp only [List.map_cons, he, if_true]
      rw [List.find?_cons_of_neg _ (by simpa using hkk),
        List.find?_cons_of_neg _ (by rw [hek]; simpa using hkk)]
      exact ih
    · simp only [List.map_cons, he, Bool.false_eq_true, if_false]
      by_cases he' : (e.1 == k') = true
      · simp only [List.find?_cons, he']
      · rw [List.find?_cons_of_neg _ (by simpa using he'),
          List.find?_cons_of_neg _ (by simpa using he')]
        exact ih

theorem findCand_setCand_self (m : CandMap) (k : String) (v : DiscoveryCandidate) :
    findCand (setCand m k v) k = some v := by
  unfold setCand
  split_ifs with h
  · unfold findCand
    rw [find?_map_replace m k v h]
    rfl
  · unfold findCand
    rw [List.find?_append]
    cases hx : List.find? (fun e => e.1 == k) m with
    | none =>
      rw [List.find?_cons_of_pos _ (by simp)]
      rfl
    | some x =>
      rw [hx] at h
      simp at h

theorem findCand_setCand_ne (m : CandMap) (k k' : String) (v : DiscoveryCandidate)
    (h : k' ≠ k) :
    findCand (setCand m k v) k' = findCand m k' := by
  unfold setCand
  split_ifs with hs
  · unfold findCand
    rw [find?_ne_map_replace m k k' v h]
  · unfold findCand
    rw [List.find?_append]
    rw [show List.find? (fun e => e.1 == k') [(k, v)] = none from by
      rw [List.find?_cons_of_neg _ (by simp only [beq_iff_eq]; exact fun x => h x.symm)]
      rfl]
    simp

/-- C5: an eligible search result item (lowercase name neither catalogued
nor denied) contributes `queryScore + min(3, stars/25)` to its
repository's accumulated score, unions the query string into the
matched-query set, keeps the maximum star count and the first non-null
description, and leaves every other repository untouched; ranking sorts
by score then stars, both descending, and keeps the top `12 × limit`. -/
theorem discover_accumulation_spec
    (existingRepos deniedRepos : List String) (queryScore : Nat) (query : String)
    (m : CandMap) (item : SearchItem) (s : Nat) (limit : Nat)
    (hstars : item.stars = some s)
    (hexist : existingRepos.contains (jsToLower item.full_name) = false)
    (hdenied : deniedRepos.contains (jsToLower item.full_name) = false) :
    (∃ c : DiscoveryCandidate,
      findCand (processItem existingRepos deniedRepos queryScore query m item)
          item.full_name = some c
      ∧ c.score = (match findCand m item.full_name with
          | none => 0
          | some old => old.score) + (queryScore + min 3 (s / 25))
      ∧ c.stars = max (match findCand m item.full_name with
          | none => 0
          | some old => old.stars) s
      ∧ c.description = (match findCand m item.full_name with
          | none => none
          | some old => old.description).orElse (fun _ => item.description)
      ∧ query ∈ c.matchedQueries
      ∧ (∀ q : String, q ∈ c.matchedQueries ↔
          (q ∈ (match findCand m item.full_name with
            | none => ([] : List String)
            | some old => old.matchedQueries) ∨ q = query)))
    ∧ (∀ k : String, k ≠ item.full_name →
        findCand (processItem existingRepos deniedRepos queryScore query m item) k
          = findCand m k)
    ∧ ((rankCandidates limit m).length = min (limit * 12) m.length)
    ∧ (rankCandidates limit m).Sorted (fun a b => rankLe a b = true)
    ∧ (∃ rest : CandMap,
        rankCandidates limit m ++ rest
            = List.insertionSort (fun a b => rankLe a b = true) m
          ∧ List.Perm (rankCandidates limit m ++ rest) m) := by
  have helig : (!existingRepos.contains (jsToLower item.full_name)
      && !deniedRepos.contains (jsToLower item.full_name)) = true := by
    rw [hexist, hdenied]
    rfl
  refine ⟨?_, ?_, ?_, ?_, ?_⟩
  · cases hold : findCand m item.full_name with
    | none =>
      refine ⟨⟨item.description, s, queryScore + min 3 (s / 25), [query]⟩, ?_, ?_, ?_, ?_, ?_, ?_⟩
      · simp only [processItem, helig, if_true, hold, hstars, Option.getD_some]
        exact findCand_setCand_self m item.full_name _
      · simp
      · simp
      · simp [Option.orElse]
      · simp
      · intro q
        simp
    | some old =>
      refine ⟨⟨old.description.orElse (fun _ => item.description), max old.stars s,
        old.score + (queryScore + min 3 (s / 25)),
        if old.matchedQueries.contains query then old.matchedQueries
        else old.matchedQueries ++ [query]⟩, ?_, ?_, ?_, ?_, ?_, ?_⟩
      · simp only [processItem, helig, if_true, hold, hstars, Option.getD_some]
        exact findCand_setCand_self m item.full_name _
      · simp
      · simp
      · simp
      · by_cases hq : old.matchedQueries.contains query = true
        · simp only [hq, if_true]
          simpa using hq
        · simp only [hq, Bool.false_eq_true, if_false]
          simp
      · intro q
        by_cases hq : old.matchedQueries.contains query = true
        · simp only [hq, if_true]
          constructor
          · intro hmem
            exact Or.inl hmem
          · intro hmem
            rcases hmem with hmem | rfl
            · exact hmem
            · simpa using hq
        · simp only [hq, Bool.false_eq_true, if_false]
          simp
  · intro k hk
    cases hold : findCand m item.full_name with
    | none =>
      simp only [processItem, helig, if_true, hold, hstars, Option.getD_some]
      exact findCand_setCand_ne m item.full_name k _ hk
    | some old =>
      simp only [processItem, helig, if_true, hold, hstars, Option.getD_some]
      exact findCand_setCand_ne m item.full_name k _ hk
  · rw [rankCandidates, List.length_take, (List.perm_insertionSort _ m).length_eq]
  · exact List.Pairwise.sublist (List.take_sublist _ _) (List.sorted_insertionSort _ m)
  · refine ⟨(List.insertionSort (fun a b => rankLe a b = true) m).drop (limit * 12),
      List.take_append_drop _ _, ?_⟩
    rw [rankCandidates, List.take_append_drop]
    exact List.perm_insertionSort _ m

/-- Concrete use of `discover_accumulation_spec`: a fresh 80-star item
under a weight-4 query accumulates `4 + min(3, 80/25) = 7`. -/
theorem discover_accumulation_spec_witness :
    ∃ c : DiscoveryCandidate,
      findCand (processItem [] [] 4 "q1" [] ⟨"Acme/Repo", some "d", some 80⟩)
          "Acme/Repo" = some c
      ∧ c.score = 7 := by
  obtain ⟨c, hfind, hscore, -⟩ :=
    (discover_accumulation_spec [] [] 4 "q1" [] ⟨"Acme/Repo", some "d", some 80⟩ 80 1
      rfl rfl rfl).1
  exact ⟨c, hfind, by rw [hscore]; decide⟩

/-! ### `lib/shard.ts`: the sharded catalog store (C9) -/

/-- A catalog record; only the identity field and one payload field matter
for the store's keying behaviour. -/
structure Project where
  full_name : String
  stars : Nat
deriving DecidableEq

/-- `getShardKey`: the lowercased first character of the owner when it is
an ASCII letter or digit, else the `other` bucket. -/
def getShardKey (fullName : String) : String :=
  let owner := jsToLower ⟨fullName.data.takeWhile (fun c => c != '/')⟩
  match owner.data with
  | [] => "other"
  | c :: _ => if ('a' ≤ c ∧ c ≤ 'z') ∨ ('0' ≤ c ∧ c ≤ '9') then ⟨[c]⟩ else "other"

/-- `a.full_name.localeCompare(b.full_name)` as an ordering, modelled by
the lexicographic character ordering (catalog names are ASCII). -/
def projectLe (a b : Project) : Bool := lexLe a.full_name.data b.full_name.data

instance : IsTotal Project (fun a b => projectLe a b = true) :=
  ⟨fun a b => lexLe_total a.full_name.data b.full_name.data⟩

instance : IsTrans Project (fun a b => projectLe a b = true) :=
  ⟨fun a b c => lexLe_trans a.full_name.data b.full_name.data c.full_name.data⟩

/-- `data.projects[idx] = parsed` at the `findIndex` position: replace the
first record whose `full_name` matches exactly. -/
def replaceFirst (p : Project) : List Project → List Project
  | [] => []
  | q :: rest =>
    if q.full_name == p.full_name then p :: rest else q :: replaceFirst p rest

/-- `upsertProject` from `lib/shard.ts`: route to the shard of the
project's key, replace the first exact `full_name` match or append, then
sort the shard by name. -/
def upsertProject (store : String → List Project) (p : Project) : String → List Project :=
  let key := getShardKey p.full_name
  let shard := store key
  let updated :=
    if (shard.find? (fun q => q.full_name == p.full_name)).isSome then replaceFirst p shard
    else shard ++ [p]
  let sorted := List.insertionSort (fun a b => projectLe a b = true) updated
  fun k => if k = key then sorted else store k

/-- `removeProject` from `lib/shard.ts`: drop the exact `full_name`
matches from the routed shard; report whether anything was dropped (no
write happens when nothing matched). -/
def removeProject (store : String → List Project) (fullName : String) :
    (String → List Project) × Bool :=
  let key := getShardKey fullName
  let shard := store key
  let filtered := shard.filter (fun p => p.full_name != fullName)
  if filtered.length = shard.length then (store, false)
  else ((fun k => if k = key then filtered else store k), true)

theorem replaceFirst_perm (p : Project) (l : List Project)
    (hnodup : (l.map (fun q => q.full_name)).Nodup)
    (hmem : ∃ q ∈ l, q.full_name = p.full_name) :
    List.Perm (replaceFirst p l)
      (p :: l.filter (fun q => q.full_name != p.full_name)) := by
  induction l with
  | nil => simp at hmem
  | cons q rest ih =>
    simp only [List.map_cons, List.nodup_cons] at hnodup
    by_cases hq : (q.full_name == p.full_name) = true
    · have hq' : q.full_name = p.full_name := beq_iff_eq.mp hq
      simp only [replaceFirst, hq, if_true, List.filter_cons]
      rw [if_neg (by simp [hq'])]
      have hrest : rest.filter (fun r => r.full_name != p.full_name) = rest := by
        rw [List.filter_eq_self]
        intro r hr
        simp only [bne_iff_ne, ne_eq]
        intro he
        exact hnodup.1 (List.mem_map.mpr ⟨r, hr, by rw [he, hq']⟩)
      rw [hrest]
    · simp only [replaceFirst, hq, Bool.false_eq_true, if_false, List.filter_cons]
      rw [if_pos (by simpa using hq)]
      have hmem' : ∃ r ∈ rest, r.full_name = p.full_name := by
        rcases hmem with ⟨r, hr, hre⟩
        rcases List.mem_cons.mp hr with rfl | hr
        · exact absurd (by simp [hre]) hq
        · exact ⟨r, hr, hre⟩
      exact ((ih hnodup.2 hmem').cons q).trans (List.Perm.swap p q _)

/-- C9 (amended): the store shards by the lowercased first character of
the owner, but keys records by exact (case-sensitive) `full_name`:
`upsertProject` replaces exactly the stored record whose name matches
exactly (appending otherwise) and re-sorts only that shard, preserving
exact-name uniqueness; `removeProject` drops exactly the records whose
name matches exactly and reports whether any was dropped.  Records whose
names differ only in letter case therefore coexist. -/
theorem shardStore_spec (store : String → List Project) (p : Project) (fullName : String)
    (hnodup : ((store (getShardKey p.full_name)).map (fun q => q.full_name)).Nodup) :
    (List.Perm (upsertProject store p (getShardKey p.full_name))
        (p :: (store (getShardKey p.full_name)).filter
          (fun q => q.full_name != p.full_name)))
    ∧ (upsertProject store p (getShardKey p.full_name)).Sorted
        (fun a b => projectLe a b = true)
    ∧ (∀ k, k ≠ getShardKey p.full_name → upsertProject store p k = store k)
    ∧ (((upsertProject store p (getShardKey p.full_name)).map
        (fun q => q.full_name)).Nodup)
    ∧ ((removeProject store fullName).1 (getShardKey fullName)
        = (store (getShardKey fullName)).filter (fun q => q.full_name != fullName))
    ∧ ((removeProject store fullName).2 = true ↔
        ∃ q ∈ store (getShardKey fullName), q.full_name = fullName)
    ∧ (∀ k, k ≠ getShardKey fullName → (removeProject store fullName).1 k = store k) := by
  have hupdated : List.Perm
      ((if ((store (getShardKey p.full_name)).find?
            (fun q => q.full_name == p.full_name)).isSome then
          replaceFirst p (store (getShardKey p.full_name))
        else store (getShardKey p.full_name) ++ [p]))
      (p :: (store (getShardKey p.full_name)).filter
        (fun q => q.full_name != p.full_name)) := by
    split_ifs with hf
    · apply replaceFirst_perm p _ hnodup
      obtain ⟨q, hq⟩ := Option.isSome_iff_exists.mp hf
      exact ⟨q, List.mem_of_find?_eq_some hq,
        beq_iff_eq.mp (by simpa using List.find?_some hq)⟩
    · have hno : ∀ q ∈ store (getShardKey p.full_name), q.full_name ≠ p.full_name := by
        intro q hq he
        exact hf (List.find?_isSome.mpr ⟨q, hq, by simp [he]⟩)
      have : (store (getShardKey p.full_name)).filter
          (fun q => q.full_name != p.full_name) = store (getShardKey p.full_name) := by
        rw [List.filter_eq_self]
        intro q hq
        simpa using hno q hq
      rw [this]
      exact List.perm_append_singleton p _
  have hshard : upsertProject store p (getShardKey p.full_name)
      = List.insertionSort (fun a b => projectLe a b = true)
          (if ((store (getShardKey p.full_name)).find?
              (fun q => q.full_name == p.full_name)).isSome then
            replaceFirst p (store (getShardKey p.full_name))
          else store (getShardKey p.full_name) ++ [p]) := by
    simp [upsertProject]
  refine ⟨?_, ?_, ?_, ?_, ?_, ?_, ?_⟩
  · rw [hshard]
    exact (List.perm_insertionSort _ _).trans hupdated
  · rw [hshard]
    exact List.sorted_insertionSort _ _
  · intro k hk
    simp [upsertProject, hk]
  · have hperm := ((List.perm_insertionSort (fun a b => projectLe a b = true) _).trans
      hupdated).map (fun q => q.full_name)
    rw [← hshard] at hperm
    rw [hperm.nodup_iff]
    simp only [List.map_cons, List.nodup_cons]
    refine ⟨?_, ?_⟩
    · intro hc
      obtain ⟨q, hq, hqe⟩ := List.mem_map.mp hc
      have := (List.mem_filter.mp hq).2
      rw [hqe] at this
      simp at this
    · exact hnodup.sublist
        (List.Sublist.map (fun q : Project => q.full_name) (List.filter_sublist _))
  · simp only [removeProject]
    split_ifs with hlen
    · exact ((List.filter_eq_self.mpr (List.filter_length_eq_length.mp hlen)).symm : _)
    · simp
  · simp only [removeProject]
    split_ifs with hlen
    · simp only [Bool.false_eq_true, false_iff]
      intro ⟨q, hq, he⟩
      have := List.filter_length_eq_length.mp hlen q hq
      simp [he] at this
    · simp only [true_iff]
      by_contra hc
      push_neg at hc
      exact hlen (List.filter_length_eq_length.mpr
        (fun q hq => by simpa using hc q hq))
  · intro k hk
    simp only [removeProject]
    split_ifs with hlen
    · rfl
    · simp [hk]

/-- C9 counterexample: upserting `Acme/repo` and then `acme/repo` stores
two records whose lowercase names coincide (the claim says the second
upsert should replace the first), and removing `ACME/repo` from a store
holding `acme/repo` removes nothing (the claim says remove matches by
lowercase name). -/
theorem upsertProject_counterexample :
    (¬ ((((upsertProject (upsertProject (fun _ => []) ⟨"Acme/repo", 1⟩) ⟨"acme/repo", 2⟩)
        "a").map (fun p => jsToLower p.full_name)).Nodup))
    ∧ (removeProject (upsertProject (fun _ => []) ⟨"acme/repo", 1⟩) "ACME/repo").2 = false := by
  constructor
  · decide
  · decide

/-- Concrete use of `shardStore_spec`: upserting into an empty store
places the single record in its owner's shard. -/
theorem shardStore_spec_witness :
    upsertProject (fun _ => []) ⟨"acme/repo", 1⟩ "a" = [⟨"acme/repo", 1⟩] := by
  have h := (shardStore_spec (fun _ => []) ⟨"acme/repo", 1⟩ "x/y" (by simp)).1
  rw [show getShardKey ("acme/repo" : String) = "a" from by decide] at h
  exact List.perm_singleton.mp (by simpa using h)
